import Mathlib

/-!
Verification of the TSV translation reconciliation scripts
(`scripts/merge_tsv.py`, `scripts/merge_patch_translation.py`,
`scripts/split_loc_master.py`) against their natural-language
specification.  Tables are shallowly embedded as lists of three-field
records; the per-run dataframe pipelines of the scripts become pure
functions on those lists.
-/

/-- One TSV record: the three fixed columns `key`, `text`, `tooltip`. -/
structure Row where
  key : String
  text : String
  tooltip : String
deriving DecidableEq

/-- Characters removed by Python `str.strip()` at either end (whitespace). -/
def stripChars (l : List Char) : List Char :=
  ((l.dropWhile Char.isWhitespace).reverse.dropWhile Char.isWhitespace).reverse

/-- Python `s.strip()`: drop leading and trailing whitespace. -/
def strip (s : String) : String := ⟨stripChars s.data⟩

/-- Character-list version of Python `str.startswith`. -/
def isPrefixList : List Char → List Char → Bool
  | [], _ => true
  | _ :: _, [] => false
  | a :: as, b :: bs => a == b && isPrefixList as bs

/-- Python `s.startswith(p)`. -/
def startsWithStr (s p : String) : Bool := isPrefixList p.data s.data

/-- First row of `rows` whose `key` equals `k` (pandas boolean-mask lookup by
key when keys are unique). -/
def findRow (rows : List Row) (k : String) : Option Row :=
  rows.find? (fun r => r.key == k)

/-- Python `dict(zip(rows.key, rows.text)).get(k)`: the text of the **last**
row whose key is `k` (later dictionary insertions overwrite earlier ones). -/
def dictGet (rows : List Row) (k : String) : Option String :=
  (rows.reverse.find? (fun r => r.key == k)).map Row.text

/-- Modelled from the spec (TextClassifier, spec 4.1): a text is Untranslated
iff it is empty or byte-for-byte equal to the reference text, Translated
otherwise.  The scripts inline this rule as string comparisons; this named
form is used to state the classification claims. -/
def specTranslated (cur rtext : String) : Bool := cur != "" && cur != rtext

namespace MergeTsv

/-- merge_tsv.py lines 154-155: `src[src["key"].str.strip() != ""]` —
drop rows whose key is empty after stripping whitespace. -/
def filterKeys (rows : List Row) : List Row :=
  rows.filter (fun r => strip r.key != "")

/-- merge_tsv.py line 158: `src.merge(trg, on="key", how="left")` — every
left row is paired with each right row sharing its key, or with `none`
when no right row matches. -/
def leftJoin (src trg : List Row) : List (Row × Option Row) :=
  src.flatMap (fun s =>
    if (trg.filter (fun t => t.key == s.key)).isEmpty then [(s, none)]
    else (trg.filter (fun t => t.key == s.key)).map (fun t => (s, some t)))

/-- merge_tsv.py lines 162-165: keep `text_old` where it is present and
non-empty, otherwise take the reference `text`. -/
def mergedText (s : Row) (told : Option Row) : String :=
  match told with
  | some t => if t.text != "" then t.text else s.text
  | none => s.text

/-- merge_tsv.py lines 158-178: one output row of the merge; column order is
restored to `key, text, tooltip`, so `key` and `tooltip` come from the
reference side of the join. -/
def mergeRow (s : Row) (told : Option Row) : Row :=
  { key := s.key, text := mergedText s told, tooltip := s.tooltip }

/-- merge_tsv.py lines 154-183: the merged table written back to the
translation file. -/
def mergedRows (src trg : List Row) : List Row :=
  (leftJoin (filterKeys src) (filterKeys trg)).map (fun p => mergeRow p.1 p.2)

/-- merge_tsv.py line 190: `trg.loc[~trg["key"].isin(src["key"])]` — rows of
the (filtered) translation whose key no longer occurs in the reference. -/
def removedRows (src trg : List Row) : List Row :=
  (filterKeys trg).filter (fun t => !((filterKeys src).any (fun s => s.key == t.key)))

/-- merge_tsv.py lines 191-196 modelled as file-state update: the archive
file is overwritten with this run's removed rows when that set is
non-empty, and left untouched (previous content `prev`) otherwise. -/
def archiveAfterRun (prev : Option (List Row)) (src trg : List Row) :
    Option (List Row) :=
  if removedRows src trg = [] then prev else some (removedRows src trg)

end MergeTsv

namespace MergePatchTranslation

/-- merge_patch_translation.py lines 66-68:
`en[en["key"].str.strip() != ""].iloc[1:]` — the non-blank-key rows minus
the first such row. -/
def subRows (rows : List Row) : List Row := (MergeTsv.filterKeys rows).drop 1

/-- merge_patch_translation.py lines 81-84: the promotion condition for one
row, with `text_en` the reference lookup text (absent defaults to `""`)
and `tp` the candidate lookup text (`none` when the key is absent). -/
def patchCond (text_en : String) (tp : Option String) (r : Row) : Bool :=
  match tp with
  | none => false
  | some tp =>
      r.key != "" && tp != "" && tp != text_en &&
        (r.text == text_en || r.text == "")

/-- merge_patch_translation.py lines 75-86: one row of the translation after
the loop body (the row's `text` is replaced by the candidate text exactly
when the promotion condition holds). -/
def patchRow (enSub paSub : List Row) (r : Row) : Row :=
  match dictGet paSub r.key with
  | none => r
  | some tp =>
      if patchCond ((dictGet enSub r.key).getD "") (some tp) r then
        { r with text := tp }
      else r

/-- merge_patch_translation.py lines 61-87 (`process`): the rewritten
translation table together with the `updated` counter. -/
def process (en translation patch : List Row) : List Row × Nat :=
  let enSub := subRows en
  let paSub := subRows patch
  (translation.map (patchRow enSub paSub),
   translation.countP
     (fun r => patchCond ((dictGet enSub r.key).getD "") (dictGet paSub r.key) r))

end MergePatchTranslation

namespace SplitLocMaster

/-- split_loc_master.py lines 77-80: a row is editable iff its stripped key
is non-empty and the key does not start with the reserved service marker. -/
def editable (r : Row) : Bool :=
  strip r.key != "" && !(startsWithStr r.key "#Loc;")

/-- split_loc_master.py lines 83-91: one row of the shard after the loop
body; `text_en` is the EN text taken **at the row's position**
(`en_df.at[idx, "text"]`), not looked up by key. -/
def splitRow (masterRows : List Row) (text_en : String) (r : Row) : Row :=
  if editable r then
    match dictGet masterRows r.key with
    | none => r
    | some tru =>
        if tru != "" && (r.text == text_en || r.text == "") && tru != text_en then
          { r with text := tru }
        else r
  else r

/-- split_loc_master.py lines 61-91 (`process`) for one shard whose loc file
already exists: each loc row is updated against the EN text at the same
row index.  The source raises when an editable row's index is missing
from the EN frame; the claims below are stated for shards whose key
column is position-aligned with the EN file, where no such miss occurs. -/
def processShard (masterRows en loc : List Row) : List Row :=
  (loc.zip en).map (fun p => splitRow masterRows p.2.text p.1)

end SplitLocMaster

/-! ### Supporting lemmas -/

theorem countP_ext {α : Type} (l : List α) (p q : α → Bool)
    (h : ∀ a ∈ l, p a = q a) : l.countP p = l.countP q := by
  induction l with
  | nil => rfl
  | cons a l ih =>
    rw [List.countP_cons, List.countP_cons, h a (List.mem_cons_self a l),
      ih (fun b hb => h b (List.mem_cons_of_mem a hb))]

namespace MergeTsv

theorem strip_ne_of_mem_filterKeys (l : List Row) (t : Row)
    (ht : t ∈ filterKeys l) : strip t.key ≠ "" := by
  have h := (List.mem_filter.mp ht).2
  simpa using h

theorem filter_key_eq_find (l : List Row) (k : String)
    (h : (l.map Row.key).Nodup) :
    l.filter (fun t => t.key == k) = (l.find? (fun t => t.key == k)).toList := by
  induction l with
  | nil => rfl
  | cons a l ih =>
    rw [List.map_cons, List.nodup_cons] at h
    cases hpa : (a.key == k) with
    | true =>
      have hak : a.key = k := beq_iff_eq.mp hpa
      have hnil : l.filter (fun t => t.key == k) = [] := by
        refine List.filter_eq_nil_iff.mpr ?_
        intro t ht hbeq
        have htk : t.key = k := beq_iff_eq.mp hbeq
        exact h.1 (by rw [hak, ← htk]; exact List.mem_map_of_mem Row.key ht)
      simp [List.filter_cons, List.find?_cons, hpa, hnil]
    | false =>
      simp only [List.filter_cons, List.find?_cons, hpa, if_false]
      simpa using ih h.2

theorem find_key_self (l : List Row) (s : Row)
    (h : (l.map Row.key).Nodup) (hs : s ∈ l) :
    l.find? (fun t => t.key == s.key) = some s := by
  induction l with
  | nil => cases hs
  | cons a l ih =>
    rw [List.map_cons, List.nodup_cons] at h
    rcases List.mem_cons.mp hs with rfl | hmem
    · simp [List.find?_cons]
    · have hne : (a.key == s.key) = false := by
        refine beq_eq_false_iff_ne.mpr ?_
        intro hak
        exact h.1 (by rw [hak]; exact List.mem_map_of_mem Row.key hmem)
      simp only [List.find?_cons, hne]
      exact ih h.2 hmem

theorem leftJoin_eq_map (src trg : List Row)
    (h : (trg.map Row.key).Nodup) :
    leftJoin src trg =
      src.map (fun s => (s, trg.find? (fun t => t.key == s.key))) := by
  induction src with
  | nil => rfl
  | cons a src ih =>
    simp only [leftJoin, List.flatMap_cons, List.map_cons] at *
    rw [ih]
    have hhead :
        (if (trg.filter (fun t => t.key == a.key)).isEmpty then
            [(a, (none : Option Row))]
          else (trg.filter (fun t => t.key == a.key)).map (fun t => (a, some t))) =
          [(a, trg.find? (fun t => t.key == a.key))] := by
      rw [filter_key_eq_find trg a.key h]
      cases trg.find? (fun t => t.key == a.key) <;> rfl
    rw [hhead]
    rfl

theorem mergedRows_eq_map (src trg : List Row)
    (h : ((filterKeys trg).map Row.key).Nodup) :
    mergedRows src trg =
      (filterKeys src).map
        (fun s => mergeRow s (findRow (filterKeys trg) s.key)) := by
  unfold mergedRows findRow
  rw [leftJoin_eq_map _ _ h, List.map_map]
  rfl

theorem mergedRows_map_key (src trg : List Row)
    (h : ((filterKeys trg).map Row.key).Nodup) :
    (mergedRows src trg).map Row.key = (filterKeys src).map Row.key := by
  rw [mergedRows_eq_map _ _ h, List.map_map]
  rfl

theorem mem_mergedRows (src trg : List Row) (m : Row)
    (hm : m ∈ mergedRows src trg) :
    ∃ s ∈ filterKeys src, m.key = s.key ∧ m.tooltip = s.tooltip := by
  unfold mergedRows at hm
  rcases List.mem_map.mp hm with ⟨p, hp, rfl⟩
  unfold leftJoin at hp
  rcases List.mem_flatMap.mp hp with ⟨s, hs, hps⟩
  have hp1 : p.1 = s := by
    revert hps
    by_cases hfil : ((filterKeys trg).filter (fun t => t.key == s.key)).isEmpty
    · rw [if_pos hfil]
      intro hps
      rw [List.mem_singleton.mp hps]
    · rw [if_neg hfil]
      intro hps
      rcases List.mem_map.mp hps with ⟨t, _, rfl⟩
      rfl
  exact ⟨s, hs, by rw [mergeRow, hp1], by rw [mergeRow, hp1]⟩

end MergeTsv

namespace MergeTsv

theorem filter_key_map_keyfix (l : List Row) (g : Row → Row) (k : String)
    (hg : ∀ t, (g t).key = t.key) :
    (l.map g).filter (fun t => t.key == k) =
      (l.filter (fun t => t.key == k)).map g := by
  induction l with
  | nil => rfl
  | cons a l ih =>
    simp only [List.map_cons, List.filter_cons, hg a]
    cases ha : (a.key == k) <;> simp [ha, ih]

theorem filterKeys_map_keyfix (l : List Row) (g : Row → Row)
    (hg : ∀ t, (g t).key = t.key) :
    filterKeys (l.map g) = (filterKeys l).map g := by
  induction l with
  | nil => rfl
  | cons a l ih =>
    simp only [filterKeys, List.map_cons, List.filter_cons, hg a] at *
    cases ha : (strip a.key != "") <;> simp [ha, ih]

theorem leftJoin_textfix (A B : List Row) (g : Row → Row)
    (hkey : ∀ t, (g t).key = t.key) (htext : ∀ t, (g t).text = t.text) :
    (leftJoin A (B.map g)).map (fun p => mergeRow p.1 p.2) =
      (leftJoin A B).map (fun p => mergeRow p.1 p.2) := by
  induction A with
  | nil => rfl
  | cons a A ih =>
    simp only [leftJoin, List.flatMap_cons, List.map_append] at *
    rw [ih, filter_key_map_keyfix B g a.key hkey]
    cases hfil : B.filter (fun t => t.key == a.key) with
    | nil => rfl
    | cons b bs =>
      simp only [List.map_cons, List.isEmpty_cons, if_neg]
      simp only [List.map_map]
      have : ∀ t ∈ b :: bs,
          mergeRow a (some (g t)) = mergeRow a (some t) := by
        intro t _
        simp [mergeRow, mergedText, htext t]
      simpa using List.map_congr_left this

end MergeTsv

namespace MergeTsv

/-- C1: ReferenceMerger per-key text rule.  For every non-service key `k` of
the reference (row `s` in the filtered reference), the merged table has a
row for `k`; its text is the current text when a current row for `k`
exists and is classified Translated against the reference text, and the
reference text otherwise (no current row, current text empty, or current
text equal to the reference text). -/
theorem per_key_text_rule (src trg : List Row)
    (h2 : ((filterKeys trg).map Row.key).Nodup)
    (k : String) (s : Row)
    (hs : findRow (filterKeys src) k = some s) :
    ∃ m, findRow (mergedRows src trg) k = some m ∧
      (∀ t, findRow (filterKeys trg) k = some t →
          specTranslated t.text s.text = true → m.text = t.text) ∧
      (∀ t, findRow (filterKeys trg) k = some t →
          specTranslated t.text s.text = false → m.text = s.text) ∧
      (findRow (filterKeys trg) k = none → m.text = s.text) := by
  have hskey : s.key = k := by
    have hb := List.find?_some hs
    exact beq_iff_eq.mp hb
  have hfind : findRow (mergedRows src trg) k =
      some (mergeRow s (findRow (filterKeys trg) k)) := by
    rw [mergedRows_eq_map _ _ h2]
    unfold findRow
    rw [List.find?_map]
    have hcomp : ((fun (r : Row) => r.key == k) ∘
        (fun s' : Row =>
          mergeRow s' (List.find? (fun r => r.key == s'.key) (filterKeys trg)))) =
        fun s' : Row => s'.key == k := rfl
    rw [hcomp]
    unfold findRow at hs
    rw [hs, Option.map_some', hskey]
  refine ⟨mergeRow s (findRow (filterKeys trg) k), hfind, ?_, ?_, ?_⟩
  · intro t hft htr
    rw [hft]
    have hb : (t.text != "") = true := by
      have := (Bool.and_eq_true _ _).mp htr
      exact this.1
    simp [mergeRow, mergedText, hb]
  · intro t hft htr
    rw [hft]
    have hdisj : t.text = "" ∨ t.text = s.text := by
      by_cases h1 : t.text = ""
      · exact Or.inl h1
      · right
        by_contra h2'
        rw [show specTranslated t.text s.text = true by
          simp [specTranslated, h1, h2']] at htr
        cases htr
    rcases hdisj with h1 | h1 <;> simp [mergeRow, mergedText, h1]
  · intro hft
    rw [hft]
    simp [mergeRow, mergedText]

/-- Witness for C1 at a concrete translated row. -/
theorem per_key_text_rule_witness :
    ∃ m, findRow (mergedRows [⟨"A", "Hello", ""⟩] [⟨"A", "Bonjour", ""⟩]) "A" =
        some m ∧
      (∀ t, findRow (filterKeys [⟨"A", "Bonjour", ""⟩]) "A" = some t →
          specTranslated t.text "Hello" = true → m.text = t.text) ∧
      (∀ t, findRow (filterKeys [⟨"A", "Bonjour", ""⟩]) "A" = some t →
          specTranslated t.text "Hello" = false → m.text = "Hello") ∧
      (findRow (filterKeys [⟨"A", "Bonjour", ""⟩]) "A" = none →
          m.text = "Hello") :=
  per_key_text_rule [⟨"A", "Hello", ""⟩] [⟨"A", "Bonjour", ""⟩] (by decide)
    "A" ⟨"A", "Hello", ""⟩ (by decide)

end MergeTsv

namespace MergeTsv

/-- C2 counterexample: with a duplicate key in the reference, re-running the
merge on its own output duplicates rows, so merge is not idempotent for
all inputs. -/
theorem idempotence_counterexample :
    mergedRows [⟨"A", "x", ""⟩, ⟨"A", "y", ""⟩]
        (mergedRows [⟨"A", "x", ""⟩, ⟨"A", "y", ""⟩] []) ≠
      mergedRows [⟨"A", "x", ""⟩, ⟨"A", "y", ""⟩] [] := by decide

/-- C2 amended: when the non-service keys of reference and current are each
unique (the data-model key-uniqueness invariant), running merge a second
time with the same reference on the merged output changes nothing, and no
further keys are archived. -/
theorem idempotent_of_unique_keys (src trg : List Row)
    (h1 : ((filterKeys src).map Row.key).Nodup)
    (h2 : ((filterKeys trg).map Row.key).Nodup) :
    mergedRows src (mergedRows src trg) = mergedRows src trg ∧
    removedRows src (mergedRows src trg) = [] := by
  have hfix : filterKeys (mergedRows src trg) = mergedRows src trg := by
    refine List.filter_eq_self.mpr ?_
    intro m hm
    rcases mem_mergedRows src trg m hm with ⟨s, hs, hkey, -⟩
    have hne := strip_ne_of_mem_filterKeys src s hs
    simp [hkey, hne]
  have hmk : (mergedRows src trg).map Row.key = (filterKeys src).map Row.key :=
    mergedRows_map_key src trg h2
  have h2' : ((filterKeys (mergedRows src trg)).map Row.key).Nodup := by
    rw [hfix, hmk]; exact h1
  constructor
  · have hpt : ∀ s ∈ filterKeys src,
        mergeRow s (findRow (filterKeys (mergedRows src trg)) s.key) =
          mergeRow s (findRow (filterKeys trg) s.key) := by
      intro s hs
      have hfm : findRow (filterKeys (mergedRows src trg)) s.key =
          some (mergeRow s (findRow (filterKeys trg) s.key)) := by
        rw [hfix, mergedRows_eq_map src trg h2]
        unfold findRow
        rw [List.find?_map]
        have hcomp : ((fun (r : Row) => r.key == s.key) ∘
            (fun s' : Row =>
              mergeRow s' (List.find? (fun r => r.key == s'.key) (filterKeys trg)))) =
            fun s' : Row => s'.key == s.key := rfl
        rw [hcomp, find_key_self (filterKeys src) s h1 hs, Option.map_some']
      rw [hfm]
      cases hft : findRow (filterKeys trg) s.key with
      | none => simp [mergeRow, mergedText]
      | some t =>
        by_cases ht : t.text = ""
        · simp [mergeRow, mergedText, ht]
        · simp [mergeRow, mergedText, ht]
    calc mergedRows src (mergedRows src trg) =
        (filterKeys src).map
          (fun s => mergeRow s (findRow (filterKeys (mergedRows src trg)) s.key)) :=
          mergedRows_eq_map _ _ h2'
      _ = (filterKeys src).map
          (fun s => mergeRow s (findRow (filterKeys trg) s.key)) :=
          List.map_congr_left hpt
      _ = mergedRows src trg := (mergedRows_eq_map src trg h2).symm
  · unfold removedRows
    rw [hfix]
    refine List.filter_eq_nil_iff.mpr ?_
    intro m hm hpred
    rcases mem_mergedRows src trg m hm with ⟨s, hs, hkey, -⟩
    have hany : (filterKeys src).any (fun s' => s'.key == m.key) = true :=
      List.any_eq_true.mpr ⟨s, hs, beq_iff_eq.mpr hkey.symm⟩
    rw [hany] at hpred
    exact absurd hpred (by simp)

/-- Witness for the amended C2 at concrete unique-key tables. -/
theorem idempotent_of_unique_keys_witness :
    mergedRows [⟨"A", "Hello", ""⟩]
        (mergedRows [⟨"A", "Hello", ""⟩] [⟨"A", "Bonjour", ""⟩]) =
      mergedRows [⟨"A", "Hello", ""⟩] [⟨"A", "Bonjour", ""⟩] ∧
    removedRows [⟨"A", "Hello", ""⟩]
        (mergedRows [⟨"A", "Hello", ""⟩] [⟨"A", "Bonjour", ""⟩]) = [] :=
  idempotent_of_unique_keys [⟨"A", "Hello", ""⟩] [⟨"A", "Bonjour", ""⟩]
    (by decide) (by decide)

/-- C3: key-set completeness of merge under key uniqueness: every
non-service reference key occurs exactly once among the merged keys,
every non-service current key absent from the reference occurs among the
archived keys, and no key absent from the reference occurs among the
merged keys. -/
theorem key_set_completeness (src trg : List Row)
    (h1 : ((filterKeys src).map Row.key).Nodup)
    (h2 : ((filterKeys trg).map Row.key).Nodup) :
    (∀ k, k ∈ (filterKeys src).map Row.key →
        ((mergedRows src trg).map Row.key).count k = 1) ∧
    (∀ t ∈ filterKeys trg, t.key ∉ (filterKeys src).map Row.key →
        t.key ∈ (removedRows src trg).map Row.key) ∧
    (∀ k, k ∉ (filterKeys src).map Row.key →
        k ∉ (mergedRows src trg).map Row.key) := by
  have hmk := mergedRows_map_key src trg h2
  refine ⟨?_, ?_, ?_⟩
  · intro k hk
    rw [hmk]
    exact List.count_eq_one_of_mem h1 hk
  · intro t ht hnot
    have hpred : (!((filterKeys src).any fun s => s.key == t.key)) = true := by
      simp only [Bool.not_eq_true']
      refine List.any_eq_false.mpr ?_
      intro s hs hbeq
      have he : s.key = t.key := beq_iff_eq.mp hbeq
      exact hnot (he ▸ List.mem_map_of_mem Row.key hs)
    have hmem : t ∈ removedRows src trg := by
      unfold removedRows
      exact List.mem_filter.mpr ⟨ht, hpred⟩
    exact List.mem_map_of_mem Row.key hmem
  · intro k hk hmem
    rw [hmk] at hmem
    exact hk hmem

/-- Witness for C3 at Scenario-D-like tables. -/
theorem key_set_completeness_witness :
    ((mergedRows [⟨"A", "Hello", ""⟩]
        [⟨"A", "Bonjour", ""⟩, ⟨"B", "Old", ""⟩]).map Row.key).count "A" = 1 ∧
    "B" ∈ (removedRows [⟨"A", "Hello", ""⟩]
        [⟨"A", "Bonjour", ""⟩, ⟨"B", "Old", ""⟩]).map Row.key :=
  ⟨(key_set_completeness [⟨"A", "Hello", ""⟩]
      [⟨"A", "Bonjour", ""⟩, ⟨"B", "Old", ""⟩] (by decide) (by decide)).1 "A"
      (by decide),
   (key_set_completeness [⟨"A", "Hello", ""⟩]
      [⟨"A", "Bonjour", ""⟩, ⟨"B", "Old", ""⟩] (by decide) (by decide)).2.1
      ⟨"B", "Old", ""⟩ (by decide) (by decide)⟩

/-- C9: the archive output after a run holds exactly the keys of current
(non-service) rows absent from the reference; when that removed set is
non-empty the archive file is overwritten with exactly it (independent of
any previous archive content), and when it is empty the file is not
written. -/
theorem archive_snapshot (prev : Option (List Row)) (src trg : List Row) :
    (∀ k, k ∈ (removedRows src trg).map Row.key ↔
        (k ∈ (filterKeys trg).map Row.key ∧
          k ∉ (filterKeys src).map Row.key)) ∧
    (removedRows src trg ≠ [] →
        archiveAfterRun prev src trg = some (removedRows src trg)) ∧
    (removedRows src trg = [] → archiveAfterRun prev src trg = prev) := by
  refine ⟨?_, ?_, ?_⟩
  · intro k
    unfold removedRows
    constructor
    · intro hk
      rcases List.mem_map.mp hk with ⟨t, ht, rfl⟩
      have hmf := List.mem_filter.mp ht
      refine ⟨List.mem_map_of_mem Row.key hmf.1, ?_⟩
      intro hmem
      rcases List.mem_map.mp hmem with ⟨s, hs, hskey⟩
      have hany : (filterKeys src).any (fun s' => s'.key == t.key) = true :=
        List.any_eq_true.mpr ⟨s, hs, beq_iff_eq.mpr hskey⟩
      have hpred := hmf.2
      rw [hany] at hpred
      exact absurd hpred (by simp)
    · rintro ⟨hk1, hk2⟩
      rcases List.mem_map.mp hk1 with ⟨t, ht, rfl⟩
      refine List.mem_map_of_mem Row.key (List.mem_filter.mpr ⟨ht, ?_⟩)
      simp only [Bool.not_eq_true']
      refine List.any_eq_false.mpr ?_
      intro s hs hbeq
      have he : s.key = t.key := beq_iff_eq.mp hbeq
      exact hk2 (he ▸ List.mem_map_of_mem Row.key hs)
  · intro hne
    unfold archiveAfterRun
    rw [if_neg hne]
  · intro heq
    unfold archiveAfterRun
    rw [if_pos heq]

/-- Witness for C9 at a concrete run with one removed key and a stale
previous archive. -/
theorem archive_snapshot_witness :
    ("B" ∈ (removedRows [⟨"A", "x", ""⟩] [⟨"B", "y", ""⟩]).map Row.key ↔
        ("B" ∈ (filterKeys [⟨"B", "y", ""⟩]).map Row.key ∧
          "B" ∉ (filterKeys [⟨"A", "x", ""⟩]).map Row.key)) ∧
    archiveAfterRun (some [⟨"Z", "z", ""⟩]) [⟨"A", "x", ""⟩] [⟨"B", "y", ""⟩] =
      some (removedRows [⟨"A", "x", ""⟩] [⟨"B", "y", ""⟩]) :=
  ⟨(archive_snapshot (some [⟨"Z", "z", ""⟩]) [⟨"A", "x", ""⟩]
      [⟨"B", "y", ""⟩]).1 "B",
   (archive_snapshot (some [⟨"Z", "z", ""⟩]) [⟨"A", "x", ""⟩]
      [⟨"B", "y", ""⟩]).2.1 (by decide)⟩

/-- C10: the tooltip of every merged row comes from the reference row of its
key, and the merged output is unchanged under arbitrary rewriting of the
current table's tooltips (current tooltips are discarded). -/
theorem tooltip_from_reference (src trg : List Row)
    (h2 : ((filterKeys trg).map Row.key).Nodup)
    (k : String) (s m : Row)
    (hs : findRow (filterKeys src) k = some s)
    (hm : findRow (mergedRows src trg) k = some m) :
    m.tooltip = s.tooltip ∧
    (∀ f : Row → String,
        mergedRows src (trg.map (fun t => { t with tooltip := f t })) =
          mergedRows src trg) := by
  constructor
  · have hfind : findRow (mergedRows src trg) k =
        some (mergeRow s (findRow (filterKeys trg) s.key)) := by
      rw [mergedRows_eq_map src trg h2]
      unfold findRow
      rw [List.find?_map]
      have hcomp : ((fun (r : Row) => r.key == k) ∘
          (fun s' : Row =>
            mergeRow s' (List.find? (fun r => r.key == s'.key) (filterKeys trg)))) =
          fun s' : Row => s'.key == k := rfl
      rw [hcomp]
      unfold findRow at hs
      rw [hs, Option.map_some']
    rw [hfind] at hm
    have hme := Option.some.inj hm
    rw [← hme]
    rfl
  · intro f
    unfold mergedRows
    rw [filterKeys_map_keyfix trg
      (fun t => { key := t.key, text := t.text, tooltip := f t }) (fun t => rfl)]
    exact leftJoin_textfix (filterKeys src) (filterKeys trg)
      (fun t => { key := t.key, text := t.text, tooltip := f t })
      (fun t => rfl) (fun t => rfl)

/-- Witness for C10: the merged tooltip is the reference one, and rewriting
the current tooltip to an arbitrary value leaves the merge unchanged. -/
theorem tooltip_from_reference_witness :
    Row.tooltip ⟨"A", "Bonjour", "ttR"⟩ = Row.tooltip ⟨"A", "Hello", "ttR"⟩ ∧
    mergedRows [⟨"A", "Hello", "ttR"⟩] [⟨"A", "Bonjour", "zz"⟩] =
      mergedRows [⟨"A", "Hello", "ttR"⟩] [⟨"A", "Bonjour", "ttC"⟩] :=
  ⟨(tooltip_from_reference [⟨"A", "Hello", "ttR"⟩] [⟨"A", "Bonjour", "ttC"⟩]
      (by decide) "A" ⟨"A", "Hello", "ttR"⟩ ⟨"A", "Bonjour", "ttR"⟩
      (by decide) (by decide)).1,
   (tooltip_from_reference [⟨"A", "Hello", "ttR"⟩] [⟨"A", "Bonjour", "ttC"⟩]
      (by decide) "A" ⟨"A", "Hello", "ttR"⟩ ⟨"A", "Bonjour", "ttR"⟩
      (by decide) (by decide)).2 (fun _ => "zz")⟩

end MergeTsv

/-- C4 counterexample: an empty-key (service) row of the reference is
filtered out before the join and is absent from the merged output, so it
is not passed through verbatim. -/
theorem service_row_counterexample :
    (⟨"", "svc", "tt"⟩ : Row) ∉
      MergeTsv.mergedRows [⟨"", "svc", "tt"⟩, ⟨"A", "Hello", ""⟩] [] := by decide

/-- C4 amended: rows whose stripped key is empty are passed through
unmodified by PatchFiller and MasterSplitter, but ReferenceMerger drops
empty-key rows of both inputs, so the merged output contains no
service rows at all. -/
theorem service_rows_amended (src trg en pa masterRows : List Row)
    (text_en : String) (r : Row) (h : strip r.key = "") :
    (∀ m ∈ MergeTsv.mergedRows src trg, strip m.key ≠ "") ∧
    MergePatchTranslation.patchRow (MergePatchTranslation.subRows en)
      (MergePatchTranslation.subRows pa) r = r ∧
    SplitLocMaster.splitRow masterRows text_en r = r := by
  refine ⟨?_, ?_, ?_⟩
  · intro m hm
    rcases MergeTsv.mem_mergedRows src trg m hm with ⟨s, hs, hkey, -⟩
    rw [hkey]
    exact MergeTsv.strip_ne_of_mem_filterKeys src s hs
  · have hfind : ((MergePatchTranslation.subRows pa).reverse.find?
        (fun t => t.key == r.key)) = none := by
      refine List.find?_eq_none.mpr ?_
      intro t ht hbeq
      have ht' : t ∈ MergeTsv.filterKeys pa :=
        List.drop_subset 1 (MergeTsv.filterKeys pa) (List.mem_reverse.mp ht)
      have hstr := MergeTsv.strip_ne_of_mem_filterKeys pa t ht'
      exact hstr (by rw [beq_iff_eq.mp hbeq, h])
    have hdict : dictGet (MergePatchTranslation.subRows pa) r.key = none := by
      unfold dictGet
      rw [hfind]
      rfl
    unfold MergePatchTranslation.patchRow
    rw [hdict]
  · have hed : SplitLocMaster.editable r = false := by
      unfold SplitLocMaster.editable
      simp [h]
    unfold SplitLocMaster.splitRow
    rw [hed]
    rfl

/-- Witness for the amended C4 at a concrete empty-key service row. -/
theorem service_rows_amended_witness :
    MergePatchTranslation.patchRow
        (MergePatchTranslation.subRows [⟨"A", "Hello", ""⟩])
        (MergePatchTranslation.subRows [⟨"A", "Salut", ""⟩])
        ⟨"", "svc", "tt"⟩ = ⟨"", "svc", "tt"⟩ ∧
    SplitLocMaster.splitRow [⟨"A", "Salut", ""⟩] "Hello" ⟨"", "svc", "tt"⟩ =
      ⟨"", "svc", "tt"⟩ :=
  ⟨(service_rows_amended [] [] [⟨"A", "Hello", ""⟩] [⟨"A", "Salut", ""⟩]
      [⟨"A", "Salut", ""⟩] "Hello" ⟨"", "svc", "tt"⟩ (by decide)).2.1,
   (service_rows_amended [] [] [⟨"A", "Hello", ""⟩] [⟨"A", "Salut", ""⟩]
      [⟨"A", "Salut", ""⟩] "Hello" ⟨"", "svc", "tt"⟩ (by decide)).2.2⟩

namespace MergePatchTranslation

theorem patchRow_eq_of_cond_false (enSub paSub : List Row) (r : Row)
    (h : patchCond ((dictGet enSub r.key).getD "") (dictGet paSub r.key) r =
      false) :
    patchRow enSub paSub r = r := by
  unfold patchRow
  cases htp : dictGet paSub r.key with
  | none => rfl
  | some tp =>
    rw [htp] at h
    simp [h]

theorem patchCond_eq_flip (enSub paSub : List Row) (r : Row) :
    patchCond ((dictGet enSub r.key).getD "") (dictGet paSub r.key) r =
      (!(specTranslated r.text ((dictGet enSub r.key).getD "")) &&
        specTranslated (patchRow enSub paSub r).text
          ((dictGet enSub r.key).getD "")) := by
  unfold patchRow
  cases htp : dictGet paSub r.key with
  | none =>
    cases hA : specTranslated r.text ((dictGet enSub r.key).getD "") <;>
      simp [patchCond, hA]
  | some tp =>
    by_cases hc :
        patchCond ((dictGet enSub r.key).getD "") (some tp) r = true
    · have hc' := hc
      simp only [patchCond, Bool.and_eq_true, bne_iff_ne, ne_eq,
        Bool.or_eq_true, beq_iff_eq] at hc'
      obtain ⟨⟨⟨hk, htp'⟩, htpte⟩, hun⟩ := hc'
      have h1 : specTranslated r.text ((dictGet enSub r.key).getD "") = false := by
        rcases hun with h' | h' <;> simp [specTranslated, h']
      have h2 : specTranslated tp ((dictGet enSub r.key).getD "") = true := by
        simp [specTranslated, htp', htpte]
      simp [hc, h1, h2]
    · have hc' : patchCond ((dictGet enSub r.key).getD "") (some tp) r = false :=
        eq_false_of_ne_true hc
      cases hA : specTranslated r.text ((dictGet enSub r.key).getD "") <;>
        simp [hc', hA]

/-- C5 counterexample: on the bare single-row tables of Scenario E the code
drops the only keyed row of reference and candidate from its lookups
(`iloc[1:]` after filtering), so nothing is promoted: the current table
is returned unchanged with promoted count 0, not `{A: Salut}` with
count 1. -/
theorem scenarioE_counterexample :
    process [⟨"A", "Hello", ""⟩] [⟨"A", "Hello", ""⟩] [⟨"A", "Salut", ""⟩] =
      ([⟨"A", "Hello", ""⟩], 0) ∧
    process [⟨"A", "Hello", ""⟩] [⟨"A", "Hello", ""⟩] [⟨"A", "Salut", ""⟩] ≠
      ([⟨"A", "Salut", ""⟩], 1) := by decide

/-- C5 amended: Scenario E holds once reference and candidate each carry one
leading service row ahead of key A (the code excludes the first keyed row
of reference and candidate from its lookups): then patch-fill yields
`{A: Salut}` with promoted count 1. -/
theorem scenarioE_amended :
    process [⟨"#Loc;", "", ""⟩, ⟨"A", "Hello", ""⟩] [⟨"A", "Hello", ""⟩]
        [⟨"#Loc;", "", ""⟩, ⟨"A", "Salut", ""⟩] =
      ([⟨"A", "Salut", ""⟩], 1) := by decide

/-- C6 counterexample: promoted count is 1 although no key flips to
Translated against the reference table — key A's text after the run
equals its reference text "Hello" (the key is absent from the code's
reference lookup, which drops the first keyed row). -/
theorem monotonicity_counterexample :
    process [⟨"A", "Hello", ""⟩] [⟨"A", "", ""⟩]
        [⟨"S", "x", ""⟩, ⟨"A", "Hello", ""⟩] =
      ([⟨"A", "Hello", ""⟩], 1) ∧
    specTranslated "Hello" "Hello" = false := by decide

/-- C6 amended: with classification anchored to the code's reference lookup
(the reference table after dropping its first keyed row, last occurrence
wins, absent keys giving the empty string), patch-fill never changes a
row whose text is Translated, and the promoted count equals the number of
rows whose classification flips from Untranslated to Translated. -/
theorem monotonic_amended (en tr pa : List Row) :
    (∀ r ∈ tr,
        specTranslated r.text ((dictGet (subRows en) r.key).getD "") = true →
        patchRow (subRows en) (subRows pa) r = r) ∧
    (process en tr pa).2 =
      tr.countP (fun r =>
        !(specTranslated r.text ((dictGet (subRows en) r.key).getD "")) &&
          specTranslated (patchRow (subRows en) (subRows pa) r).text
            ((dictGet (subRows en) r.key).getD "")) := by
  constructor
  · intro r _ htr
    apply patchRow_eq_of_cond_false
    cases htp : dictGet (subRows pa) r.key with
    | none => rfl
    | some tp =>
      simp only [specTranslated, Bool.and_eq_true, bne_iff_ne, ne_eq] at htr
      have hor : (r.text == (dictGet (subRows en) r.key).getD "" ||
          r.text == "") = false := by
        simp [htr.1, htr.2]
      simp [patchCond, hor]
  · exact countP_ext tr _ _
      (fun r _ => patchCond_eq_flip (subRows en) (subRows pa) r)

/-- Witness for the amended C6: a Translated row is left unchanged, and the
promoted count agrees with the flip count on a concrete run. -/
theorem monotonic_amended_witness :
    patchRow (subRows [⟨"S", "x", ""⟩, ⟨"A", "Hello", ""⟩])
        (subRows [⟨"S", "x", ""⟩, ⟨"A", "Salut", ""⟩]) ⟨"A", "Bonjour", ""⟩ =
      ⟨"A", "Bonjour", ""⟩ ∧
    (process [⟨"S", "x", ""⟩, ⟨"A", "Hello", ""⟩] [⟨"A", "Bonjour", ""⟩]
        [⟨"S", "x", ""⟩, ⟨"A", "Salut", ""⟩]).2 = 0 := by
  have h := monotonic_amended [⟨"S", "x", ""⟩, ⟨"A", "Hello", ""⟩]
    [⟨"A", "Bonjour", ""⟩] [⟨"S", "x", ""⟩, ⟨"A", "Salut", ""⟩]
  exact ⟨h.1 ⟨"A", "Bonjour", ""⟩ (by decide) (by decide),
    h.2.trans (by decide)⟩

/-- C8 counterexample: a key absent from the reference is given reference
text `""` by the code (`en_lookup.get(k, "")`): the run behaves exactly
as if the reference contained that key with empty text, and promotes it
(count 1), so absence is not treated as "no information". -/
theorem absence_counterexample :
    process [⟨"S", "x", ""⟩, ⟨"B", "y", ""⟩] [⟨"A", "", ""⟩]
        [⟨"S", "x", ""⟩, ⟨"A", "Hello", ""⟩] =
      process [⟨"S", "x", ""⟩, ⟨"B", "y", ""⟩, ⟨"A", "", ""⟩] [⟨"A", "", ""⟩]
        [⟨"S", "x", ""⟩, ⟨"A", "Hello", ""⟩] ∧
    (process [⟨"S", "x", ""⟩, ⟨"B", "y", ""⟩] [⟨"A", "", ""⟩]
        [⟨"S", "x", ""⟩, ⟨"A", "Hello", ""⟩]).2 = 1 := by decide

/-- C8 amended: an absent candidate entry yields no change (no information),
but an absent reference entry is treated as the empty string: the
promotion conditions then reduce to "key non-empty, candidate text
non-empty, current text empty". -/
theorem absence_amended (en pa : List Row) (r : Row) :
    (dictGet (subRows pa) r.key = none →
        patchRow (subRows en) (subRows pa) r = r) ∧
    (dictGet (subRows en) r.key = none →
        patchRow (subRows en) (subRows pa) r =
          match dictGet (subRows pa) r.key with
          | none => r
          | some tp =>
              if r.key != "" && tp != "" && r.text == "" then
                { r with text := tp }
              else r) := by
  constructor
  · intro hnone
    unfold patchRow
    rw [hnone]
  · intro hnone
    unfold patchRow
    rw [hnone]
    cases htp : dictGet (subRows pa) r.key with
    | none => rfl
    | some tp =>
      have hcond : patchCond ((none : Option String).getD "") (some tp) r =
          (r.key != "" && tp != "" && r.text == "") := by
        cases h1 : (r.key != "") <;> cases h2 : (tp != "") <;>
          cases h3 : (r.text == "") <;> simp [patchCond, h1, h2, h3]
      simp only [hcond]

/-- Witness for the amended C8: a key absent from the reference lookup with
empty current text and non-empty candidate text gets promoted. -/
theorem absence_amended_witness :
    patchRow (subRows [⟨"S", "x", ""⟩, ⟨"B", "y", ""⟩])
        (subRows [⟨"S", "x", ""⟩, ⟨"A", "Hello", ""⟩]) ⟨"A", "", ""⟩ =
      ⟨"A", "Hello", ""⟩ := by
  have h := (absence_amended [⟨"S", "x", ""⟩, ⟨"B", "y", ""⟩]
    [⟨"S", "x", ""⟩, ⟨"A", "Hello", ""⟩] ⟨"A", "", ""⟩).2 (by decide)
  rw [h]
  decide

end MergePatchTranslation

namespace SplitLocMaster

/-- C7 counterexample: the code reads the reference text at the row's
position, not by key.  With the shard's rows in a different order than
the EN file, key B's row is Untranslated against its per-key reference
text "World" and the master offers the non-empty, different text "Monde",
yet nothing is adopted (the row is compared against "Hello", the EN text
at its position). -/
theorem edit_rule_counterexample :
    processShard [⟨"B", "Monde", ""⟩]
        [⟨"A", "Hello", ""⟩, ⟨"B", "World", ""⟩]
        [⟨"B", "World", ""⟩, ⟨"A", "Hello", ""⟩] =
      [⟨"B", "World", ""⟩, ⟨"A", "Hello", ""⟩] ∧
    specTranslated "World" "World" = false ∧
    dictGet [⟨"B", "Monde", ""⟩] "B" = some "Monde" ∧
    ("Monde" : String) ≠ "World" ∧ ("Monde" : String) ≠ "" := by decide

/-- C7 amended: the comparison text is the EN text at the row's position;
when the shard's key column is position-aligned with the EN file (and EN
keys are unique) this coincides with the shard's reference text for the
row's key, and the per-key edit rule of the claim holds. -/
theorem edit_rule_amended (masterRows en loc : List Row)
    (hkeys : loc.map Row.key = en.map Row.key)
    (hnodup : (en.map Row.key).Nodup)
    (i : Nat) (r e : Row)
    (hr : loc[i]? = some r) (he : en[i]? = some e)
    (hedit : editable r = true) :
    (processShard masterRows en loc)[i]? =
      some (match dictGet masterRows r.key with
        | none => r
        | some tru =>
            if tru != "" && !(specTranslated r.text e.text) && tru != e.text then
              { r with text := tru }
            else r) ∧
    findRow en r.key = some e := by
  have hk : r.key = e.key := by
    have h1 : (loc.map Row.key)[i]? = some r.key := by
      rw [List.getElem?_map, hr]; rfl
    have h2 : (en.map Row.key)[i]? = some e.key := by
      rw [List.getElem?_map, he]; rfl
    rw [hkeys] at h1
    rw [h1] at h2
    exact Option.some.inj h2
  have hmem : e ∈ en := by
    rcases List.getElem?_eq_some.mp he with ⟨hl, heq⟩
    exact heq ▸ List.getElem_mem hl
  have hfind : findRow en r.key = some e := by
    unfold findRow
    rw [hk]
    exact MergeTsv.find_key_self en e hnodup hmem
  refine ⟨?_, hfind⟩
  have hz : (loc.zip en)[i]? = some (r, e) := by
    rw [List.getElem?_zip_eq_some]
    exact ⟨hr, he⟩
  unfold processShard
  rw [List.getElem?_map, hz, Option.map_some']
  congr 1
  unfold splitRow
  rw [if_pos hedit]
  cases hm : dictGet masterRows r.key with
  | none => rfl
  | some tru =>
    have hcnd : (r.text == e.text || r.text == "") =
        !(specTranslated r.text e.text) := by
      unfold specTranslated
      cases h1 : (r.text == e.text) <;> cases h2 : (r.text == "") <;>
        simp [bne, h1, h2]
    simp only [hcnd]

/-- Witness for the amended C7 on an aligned one-row shard: the untranslated
row adopts the master text and the positional text agrees with the
per-key reference text. -/
theorem edit_rule_amended_witness :
    (processShard [⟨"A", "Salut", ""⟩] [⟨"A", "Hello", ""⟩]
        [⟨"A", "", ""⟩])[0]? = some ⟨"A", "Salut", ""⟩ ∧
    findRow [⟨"A", "Hello", ""⟩] "A" = some ⟨"A", "Hello", ""⟩ := by
  have h := edit_rule_amended [⟨"A", "Salut", ""⟩] [⟨"A", "Hello", ""⟩]
    [⟨"A", "", ""⟩] (by decide) (by decide) 0 ⟨"A", "", ""⟩
    ⟨"A", "Hello", ""⟩ (by decide) (by decide) (by decide)
  exact ⟨h.1.trans (by decide), h.2⟩

end SplitLocMaster
